import Mathlib

/-!
Shallow embedding of the utility module of a peer-to-peer realtime
communication SDK (src/util/index.js): identifier validation, the
signaling message taxonomy, the binary codec contract, buffer joining,
random-token generation and transport capability detection, together
with theorems settling the specification claims about them.
-/

namespace SkywayUtil

/-! ## Character classes used by the validation regexes -/

/-- Character class of the JS regex class A-Za-z0-9: an ASCII letter or digit. -/
def isAlnumAscii (c : Char) : Bool :=
  (('A' ≤ c && c ≤ 'Z') || ('a' ≤ c && c ≤ 'z') || ('0' ≤ c && c ≤ '9'))

/-- Character class of the first segment of the peer-id regex: A-Za-z0-9 plus
underscore and hyphen. -/
def isIdChar (c : Char) : Bool :=
  isAlnumAscii c || c = '_' || c = '-'

/-- Separator class of the peer-id regex: space, underscore or hyphen. -/
def isSepChar (c : Char) : Bool :=
  c = ' ' || c = '_' || c = '-'

/-! ## The peer-id regex

The source validates a peer id against the anchored JS regex
`[A-Za-z0-9_-]+([ _-][A-Za-z0-9]+)*` (full match).  The matcher below
is a direct recursive embedding of that regex's language; `alnumPlusG`
matches `[A-Za-z0-9]+([ _-][A-Za-z0-9]+)*`, `alnumStarG` matches
`[A-Za-z0-9]*([ _-][A-Za-z0-9]+)*`, `idStarG` matches
`[A-Za-z0-9_-]*([ _-][A-Za-z0-9]+)*`, and `matchIdFull` matches the
whole pattern. -/

mutual

/-- Matcher for the tail language A-Za-z0-9 one-or-more followed by
separator-delimited alphanumeric groups. -/
def alnumPlusG : List Char → Bool
  | [] => false
  | c :: rest => isAlnumAscii c && alnumStarG rest

/-- Matcher for the tail language A-Za-z0-9 zero-or-more followed by
separator-delimited alphanumeric groups.  Because the separator class and the
alphanumeric class are disjoint, the split point is forced. -/
def alnumStarG : List Char → Bool
  | [] => true
  | c :: rest =>
    if isAlnumAscii c then alnumStarG rest
    else isSepChar c && alnumPlusG rest

end

/-- Matcher for the language of zero or more first-segment characters followed
by separator-delimited alphanumeric groups.  The first-segment class overlaps
the separator class, so both continuations are tried (regex backtracking). -/
def idStarG : List Char → Bool
  | [] => true
  | c :: rest => (isIdChar c && idStarG rest) || (isSepChar c && alnumPlusG rest)

/-- Full-match of the peer-id regex: one first-segment character, then
`idStarG`. -/
def matchIdFull : List Char → Bool
  | [] => false
  | c :: rest => isIdChar c && idStarG rest

/-- Truth-value model of `Util.validateId` from the source: an absent or empty
id is accepted, otherwise the id is accepted iff the regex matches it
(the JS code returns a truthy match object exactly when the regex matches). -/
def validateId (id : Option String) : Bool :=
  match id with
  | none => true
  | some s => s.data.isEmpty || matchIdFull s.data

/-! ## The API-key regex

The source validates an API key against the anchored JS regex
`[a-z0-9]{8}(-[a-z0-9]{4}){3}-[a-z0-9]{12}` (full match). -/

/-- Character class a-z0-9 of the API-key regex: a lowercase ASCII letter or a
digit. -/
def isLowerAlnum (c : Char) : Bool :=
  ('a' ≤ c && c ≤ 'z') || ('0' ≤ c && c ≤ '9')

/-- Consume exactly `n` characters of class a-z0-9, returning the rest of the
input, or `none` when the input does not start with such a run. -/
def lowerAlnumRun : Nat → List Char → Option (List Char)
  | 0, l => some l
  | _ + 1, [] => none
  | n + 1, c :: rest => if isLowerAlnum c then lowerAlnumRun n rest else none

/-- Consume a hyphen followed by exactly `n` characters of class a-z0-9. -/
def hyphenGroup (n : Nat) : List Char → Option (List Char)
  | [] => none
  | c :: rest => if c = '-' then lowerAlnumRun n rest else none

/-- Full-match of the API-key regex: groups of 8, 4, 4, 4 and 12 characters of
class a-z0-9 separated by single hyphens. -/
def matchKeyFull (l : List Char) : Bool :=
  match lowerAlnumRun 8 l >>= hyphenGroup 4 >>= hyphenGroup 4 >>=
      hyphenGroup 4 >>= hyphenGroup 12 with
  | some [] => true
  | _ => false

/-- Truth-value model of `Util.validateKey` from the source: an absent or empty
key is accepted, otherwise the key is accepted iff the regex matches it. -/
def validateKey (key : Option String) : Bool :=
  match key with
  | none => true
  | some s => s.data.isEmpty || matchKeyFull s.data

/-! ## The raw JavaScript return values of the validators

The JS functions return `!id || regex.exec(id)`: a boolean for the
falsy-input branch, and the result of `RegExp.exec` — a match object or
`null` — otherwise.  `JSVal` models that value exactly. -/

/-- Model of the JavaScript value actually returned by the validators: a
boolean, `null`, or a regex match object (whose matched text, for an anchored
full-match regex, is the input itself). -/
inductive JSVal where
  | jsBool (b : Bool)
  | jsNull
  | jsMatch (s : String)
  deriving DecidableEq, Repr

/-- Whether a `JSVal` is a boolean value. -/
def JSVal.isBoolVal : JSVal → Bool
  | .jsBool _ => true
  | _ => false

/-- Model of the exact return value of `Util.validateId`: `!id` short-circuits
to the boolean `true` on falsy input, otherwise the value of
`regex.exec(id)` is returned unchanged (match object or `null`). -/
def validateIdJS (id : Option String) : JSVal :=
  match id with
  | none => .jsBool true
  | some s =>
    if s.data.isEmpty then .jsBool true
    else if matchIdFull s.data then .jsMatch s else .jsNull

/-- Model of the exact return value of `Util.validateKey`, in the same way. -/
def validateKeyJS (key : Option String) : JSVal :=
  match key with
  | none => .jsBool true
  | some s =>
    if s.data.isEmpty then .jsBool true
    else if matchKeyFull s.data then .jsMatch s else .jsNull

/-! ## Declarative characterization of the peer-id language

The shapes below state, as explicit decompositions, which strings the
peer-id regex accepts; the equivalence with the executable matcher is
proved further down. -/

/-- Every pair in the list is a well-formed continuation group: a separator
character followed by a nonempty run of ASCII alphanumerics. -/
def GoodParts (parts : List (Char × List Char)) : Prop :=
  ∀ p ∈ parts, isSepChar p.1 = true ∧ p.2 ≠ [] ∧ ∀ c ∈ p.2, isAlnumAscii c = true

/-- The characters contributed by a list of continuation groups, in order. -/
def partsChars : List (Char × List Char) → List Char
  | [] => []
  | p :: rest => p.1 :: (p.2 ++ partsChars rest)

/-- Shape of the language of `alnumPlusG`: a nonempty alphanumeric segment
followed by continuation groups. -/
def SegTail (l : List Char) : Prop :=
  ∃ seg parts, seg ≠ [] ∧ (∀ c ∈ seg, isAlnumAscii c = true) ∧ GoodParts parts ∧
    l = seg ++ partsChars parts

/-- Shape of the language of `alnumStarG`: a possibly empty alphanumeric
segment followed by continuation groups. -/
def StarTail (l : List Char) : Prop :=
  ∃ seg parts, (∀ c ∈ seg, isAlnumAscii c = true) ∧ GoodParts parts ∧
    l = seg ++ partsChars parts

/-- Shape of the language of `idStarG`: a possibly empty first-segment run
followed by continuation groups. -/
def IdTail (l : List Char) : Prop :=
  ∃ seg parts, (∀ c ∈ seg, isIdChar c = true) ∧ GoodParts parts ∧
    l = seg ++ partsChars parts

/-- Shape of the full peer-id language: a nonempty first segment of characters
from A-Za-z0-9 plus underscore and hyphen, followed by zero or more groups of
one separator (space, underscore or hyphen) and a nonempty strictly
alphanumeric segment. -/
def IdShape (l : List Char) : Prop :=
  ∃ seg parts, seg ≠ [] ∧ (∀ c ∈ seg, isIdChar c = true) ∧ GoodParts parts ∧
    l = seg ++ partsChars parts

/-- A separator character is never an ASCII alphanumeric. -/
lemma sep_not_alnum {c : Char} (h : isSepChar c = true) : isAlnumAscii c = false := by
  simp only [isSepChar, Bool.or_eq_true, decide_eq_true_eq] at h
  rcases h with (h | h) | h <;> subst h <;> decide

/-- Every separator character is also a legal first-segment character or a
space; conversely an alphanumeric character is a legal first-segment
character. -/
lemma alnum_isIdChar {c : Char} (h : isAlnumAscii c = true) : isIdChar c = true := by
  simp [isIdChar, h]

/-- The empty list has no `SegTail` decomposition: the leading segment is
nonempty. -/
lemma not_segTail_nil : ¬ SegTail [] := by
  rintro ⟨seg, parts, hne, -, -, heq⟩
  rcases List.append_eq_nil.mp heq.symm with ⟨h1, -⟩
  exact hne h1

/-- The empty list trivially has a `StarTail` decomposition. -/
lemma starTail_nil : StarTail [] :=
  ⟨[], [], fun c hc => absurd hc (List.not_mem_nil c),
    fun p hp => absurd hp (List.not_mem_nil p), rfl⟩

/-- Main equivalence between the two mutual matchers and their declarative
shapes, proved by strong induction on the input length. -/
lemma plusStar_equiv (n : Nat) : ∀ l : List Char, l.length ≤ n →
    (alnumPlusG l = true ↔ SegTail l) ∧ (alnumStarG l = true ↔ StarTail l) := by
  induction n with
  | zero =>
    intro l hl
    have hnil : l = [] := List.length_eq_zero.mp (Nat.le_zero.mp hl)
    subst hnil
    refine ⟨⟨fun h => by simp [alnumPlusG] at h, fun h => absurd h not_segTail_nil⟩, ?_⟩
    exact ⟨fun _ => starTail_nil, fun _ => by simp [alnumStarG]⟩
  | succ n ih =>
    intro l hl
    cases l with
    | nil =>
      refine ⟨⟨fun h => by simp [alnumPlusG] at h, fun h => absurd h not_segTail_nil⟩, ?_⟩
      exact ⟨fun _ => starTail_nil, fun _ => by simp [alnumStarG]⟩
    | cons c rest =>
      have hr : rest.length ≤ n := by
        simp only [List.length_cons] at hl; omega
      obtain ⟨ihPlus, ihStar⟩ := ih rest hr
      constructor
      · -- the one-or-more matcher
        simp only [alnumPlusG, Bool.and_eq_true]
        constructor
        · rintro ⟨hc, hstar⟩
          obtain ⟨seg, parts, hall, hgood, heq⟩ := ihStar.mp hstar
          refine ⟨c :: seg, parts, by simp, ?_, hgood, by simp [heq]⟩
          intro d hd
          rcases List.mem_cons.mp hd with h | h
          · exact h ▸ hc
          · exact hall d h
        · rintro ⟨seg, parts, hne, hall, hgood, heq⟩
          cases seg with
          | nil => exact absurd rfl hne
          | cons d seg' =>
            simp only [List.cons_append, List.cons.injEq] at heq
            obtain ⟨rfl, hrest⟩ := heq
            refine ⟨hall c (by simp), ihStar.mpr ⟨seg', parts, ?_, hgood, hrest⟩⟩
            intro e he
            exact hall e (List.mem_cons_of_mem _ he)
      · -- the zero-or-more matcher
        by_cases hac : isAlnumAscii c = true
        · simp only [alnumStarG, hac, if_pos]
          constructor
          · intro hstar
            obtain ⟨seg, parts, hall, hgood, heq⟩ := ihStar.mp hstar
            refine ⟨c :: seg, parts, ?_, hgood, by simp [heq]⟩
            intro d hd
            rcases List.mem_cons.mp hd with h | h
            · exact h ▸ hac
            · exact hall d h
          · rintro ⟨seg, parts, hall, hgood, heq⟩
            cases seg with
            | nil =>
              simp only [List.nil_append] at heq
              cases parts with
              | nil => simp [partsChars] at heq
              | cons p parts' =>
                simp only [partsChars, List.cons.injEq] at heq
                obtain ⟨rfl, -⟩ := heq
                have hsep := (hgood p (by simp)).1
                rw [sep_not_alnum hsep] at hac
                exact absurd hac (by simp)
            | cons d seg' =>
              simp only [List.cons_append, List.cons.injEq] at heq
              obtain ⟨rfl, hrest⟩ := heq
              refine ihStar.mpr ⟨seg', parts, ?_, hgood, hrest⟩
              intro e he
              exact hall e (List.mem_cons_of_mem _ he)
        · have hac' : isAlnumAscii c = false := by
            cases h : isAlnumAscii c
            · rfl
            · exact absurd h hac
          simp only [alnumStarG, hac', Bool.false_eq_true, if_false, Bool.and_eq_true]
          constructor
          · rintro ⟨hsep, hplus⟩
            obtain ⟨seg1, parts1, hne1, hall1, hgood1, heq1⟩ := ihPlus.mp hplus
            refine ⟨[], (c, seg1) :: parts1,
              fun d hd => absurd hd (List.not_mem_nil d), ?_, ?_⟩
            · intro p hp
              rcases List.mem_cons.mp hp with h | h
              · subst h; exact ⟨hsep, hne1, hall1⟩
              · exact hgood1 p h
            · simp [partsChars, heq1]
          · rintro ⟨seg, parts, hall, hgood, heq⟩
            cases seg with
            | cons d seg' =>
              simp only [List.cons_append, List.cons.injEq] at heq
              obtain ⟨rfl, -⟩ := heq
              have := hall c (by simp)
              rw [hac'] at this
              exact absurd this (by simp)
            | nil =>
              simp only [List.nil_append] at heq
              cases parts with
              | nil => simp [partsChars] at heq
              | cons p parts' =>
                simp only [partsChars, List.cons.injEq] at heq
                obtain ⟨rfl, hrest⟩ := heq
                obtain ⟨hsep, hne2, hall2⟩ := hgood p (by simp)
                refine ⟨hsep, ihPlus.mpr ⟨p.2, parts', hne2, hall2, ?_, hrest⟩⟩
                intro q hq
                exact hgood q (List.mem_cons_of_mem _ hq)

/-- Equivalence between `idStarG` and its declarative shape, by structural
induction on the input using `plusStar_equiv` for the switch to the
continuation-group language. -/
lemma idStar_equiv : ∀ l : List Char, idStarG l = true ↔ IdTail l := by
  intro l
  induction l with
  | nil =>
    refine ⟨fun _ => ⟨[], [], fun c hc => absurd hc (List.not_mem_nil c),
      fun p hp => absurd hp (List.not_mem_nil p), rfl⟩, ?_⟩
    intro _; simp [idStarG]
  | cons c rest ih =>
    obtain ⟨ihPlus, -⟩ := plusStar_equiv rest.length rest (Nat.le_refl _)
    simp only [idStarG, Bool.or_eq_true, Bool.and_eq_true]
    constructor
    · rintro (⟨hid, hrest⟩ | ⟨hsep, hplus⟩)
      · obtain ⟨seg, parts, hall, hgood, heq⟩ := ih.mp hrest
        refine ⟨c :: seg, parts, ?_, hgood, by simp [heq]⟩
        intro d hd
        rcases List.mem_cons.mp hd with h | h
        · exact h ▸ hid
        · exact hall d h
      · obtain ⟨seg1, parts1, hne1, hall1, hgood1, heq1⟩ := ihPlus.mp hplus
        refine ⟨[], (c, seg1) :: parts1,
          fun d hd => absurd hd (List.not_mem_nil d), ?_, ?_⟩
        · intro p hp
          rcases List.mem_cons.mp hp with h | h
          · subst h; exact ⟨hsep, hne1, hall1⟩
          · exact hgood1 p h
        · simp [partsChars, heq1]
    · rintro ⟨seg, parts, hall, hgood, heq⟩
      cases seg with
      | cons d seg' =>
        simp only [List.cons_append, List.cons.injEq] at heq
        obtain ⟨rfl, hrest⟩ := heq
        refine Or.inl ⟨hall c (by simp), ih.mpr ⟨seg', parts, ?_, hgood, hrest⟩⟩
        intro e he
        exact hall e (List.mem_cons_of_mem _ he)
      | nil =>
        simp only [List.nil_append] at heq
        cases parts with
        | nil => simp [partsChars] at heq
        | cons p parts' =>
          simp only [partsChars, List.cons.injEq] at heq
          obtain ⟨rfl, hrest⟩ := heq
          obtain ⟨hsep, hne2, hall2⟩ := hgood p (by simp)
          refine Or.inr ⟨hsep, ihPlus.mpr ⟨p.2, parts', hne2, hall2, ?_, hrest⟩⟩
          intro q hq
          exact hgood q (List.mem_cons_of_mem _ hq)

/-- The executable full-match of the peer-id regex accepts exactly the strings
of `IdShape`. -/
lemma matchIdFull_iff (l : List Char) : matchIdFull l = true ↔ IdShape l := by
  cases l with
  | nil =>
    constructor
    · intro h; simp [matchIdFull] at h
    · rintro ⟨seg, parts, hne, -, -, heq⟩
      rcases List.append_eq_nil.mp heq.symm with ⟨h1, -⟩
      exact absurd h1 hne
  | cons c rest =>
    simp only [matchIdFull, Bool.and_eq_true]
    constructor
    · rintro ⟨hid, hrest⟩
      obtain ⟨seg, parts, hall, hgood, heq⟩ := (idStar_equiv rest).mp hrest
      refine ⟨c :: seg, parts, by simp, ?_, hgood, by simp [heq]⟩
      intro d hd
      rcases List.mem_cons.mp hd with h | h
      · exact h ▸ hid
      · exact hall d h
    · rintro ⟨seg, parts, hne, hall, hgood, heq⟩
      cases seg with
      | nil => exact absurd rfl hne
      | cons d seg' =>
        simp only [List.cons_append, List.cons.injEq] at heq
        obtain ⟨rfl, hrest⟩ := heq
        refine ⟨hall c (by simp), (idStar_equiv rest).mpr ⟨seg', parts, ?_, hgood, hrest⟩⟩
        intro e he
        exact hall e (List.mem_cons_of_mem _ he)

/-! ## Declarative characterization of the API-key language -/

/-- Shape of the full API-key language: five hyphen-separated groups of 8, 4,
4, 4 and 12 characters, each a lowercase ASCII letter or digit. -/
def KeyShape (l : List Char) : Prop :=
  ∃ g1 g2 g3 g4 g5 : List Char,
    g1.length = 8 ∧ g2.length = 4 ∧ g3.length = 4 ∧ g4.length = 4 ∧
    g5.length = 12 ∧
    (∀ c ∈ g1, isLowerAlnum c = true) ∧ (∀ c ∈ g2, isLowerAlnum c = true) ∧
    (∀ c ∈ g3, isLowerAlnum c = true) ∧ (∀ c ∈ g4, isLowerAlnum c = true) ∧
    (∀ c ∈ g5, isLowerAlnum c = true) ∧
    l = g1 ++ '-' :: (g2 ++ '-' :: (g3 ++ '-' :: (g4 ++ '-' :: g5)))

/-- Soundness of the fixed-length run consumer: a successful run yields a
decomposition into a run of the right length and the rest. -/
lemma run_sound : ∀ (n : Nat) (l r : List Char), lowerAlnumRun n l = some r →
    ∃ g, g.length = n ∧ (∀ c ∈ g, isLowerAlnum c = true) ∧ l = g ++ r := by
  intro n
  induction n with
  | zero =>
    intro l r h
    simp only [lowerAlnumRun, Option.some.injEq] at h
    exact ⟨[], rfl, fun c hc => absurd hc (List.not_mem_nil c), by simp [h]⟩
  | succ n ih =>
    intro l r h
    cases l with
    | nil => simp [lowerAlnumRun] at h
    | cons c rest =>
      by_cases hc : isLowerAlnum c = true
      · simp only [lowerAlnumRun, hc, if_pos] at h
        obtain ⟨g, hlen, hall, hrest⟩ := ih rest r h
        refine ⟨c :: g, by simp [hlen], ?_, by simp [hrest]⟩
        intro d hd
        rcases List.mem_cons.mp hd with h' | h'
        · exact h' ▸ hc
        · exact hall d h'
      · simp [lowerAlnumRun, hc] at h

/-- Completeness of the fixed-length run consumer: it consumes a run of the
right length and leaves the rest. -/
lemma run_complete : ∀ (g r : List Char), (∀ c ∈ g, isLowerAlnum c = true) →
    lowerAlnumRun g.length (g ++ r) = some r := by
  intro g
  induction g with
  | nil => intro r _; simp [lowerAlnumRun]
  | cons c g' ih =>
    intro r hall
    have hc : isLowerAlnum c = true := hall c (by simp)
    simp only [List.length_cons, List.cons_append, lowerAlnumRun, hc, if_pos]
    exact ih r fun d hd => hall d (List.mem_cons_of_mem _ hd)

/-- Soundness of the hyphen-group consumer. -/
lemma hyphenGroup_sound (n : Nat) (l r : List Char)
    (h : hyphenGroup n l = some r) :
    ∃ g, g.length = n ∧ (∀ c ∈ g, isLowerAlnum c = true) ∧ l = '-' :: (g ++ r) := by
  cases l with
  | nil => simp [hyphenGroup] at h
  | cons c rest =>
    by_cases hc : c = '-'
    · subst hc
      simp only [hyphenGroup, if_pos] at h
      obtain ⟨g, hlen, hall, hrest⟩ := run_sound n rest r h
      exact ⟨g, hlen, hall, by simp [hrest]⟩
    · simp [hyphenGroup, hc] at h

/-- Completeness of the hyphen-group consumer. -/
lemma hyphenGroup_complete (g r : List Char) (hall : ∀ c ∈ g, isLowerAlnum c = true) :
    hyphenGroup g.length ('-' :: (g ++ r)) = some r := by
  simp only [hyphenGroup, if_pos]
  exact run_complete g r hall

/-- The executable full-match of the API-key regex accepts exactly the strings
of `KeyShape`. -/
lemma matchKeyFull_iff (l : List Char) : matchKeyFull l = true ↔ KeyShape l := by
  constructor
  · intro h
    rw [matchKeyFull.eq_def] at h
    cases h1 : lowerAlnumRun 8 l >>= hyphenGroup 4 >>= hyphenGroup 4 >>=
        hyphenGroup 4 >>= hyphenGroup 12 with
    | none => rw [h1] at h; exact absurd h (by simp)
    | some r5 =>
      rw [h1] at h
      cases r5 with
      | cons d r5' => exact absurd h (by simp)
      | nil =>
        obtain ⟨r4, h14, h45⟩ :
            ∃ r4, (lowerAlnumRun 8 l >>= hyphenGroup 4 >>= hyphenGroup 4 >>=
              hyphenGroup 4) = some r4 ∧ hyphenGroup 12 r4 = some [] := by
          cases hmid : lowerAlnumRun 8 l >>= hyphenGroup 4 >>= hyphenGroup 4 >>=
              hyphenGroup 4 with
          | none => rw [hmid] at h1; exact absurd h1 (by simp)
          | some r4 => rw [hmid] at h1; exact ⟨r4, rfl, by simpa using h1⟩
        obtain ⟨r3, h13, h34⟩ :
            ∃ r3, (lowerAlnumRun 8 l >>= hyphenGroup 4 >>= hyphenGroup 4) = some r3 ∧
              hyphenGroup 4 r3 = some r4 := by
          cases hmid : lowerAlnumRun 8 l >>= hyphenGroup 4 >>= hyphenGroup 4 with
          | none => rw [hmid] at h14; exact absurd h14 (by simp)
          | some r3 => rw [hmid] at h14; exact ⟨r3, rfl, by simpa using h14⟩
        obtain ⟨r2, h12, h23⟩ :
            ∃ r2, (lowerAlnumRun 8 l >>= hyphenGroup 4) = some r2 ∧
              hyphenGroup 4 r2 = some r3 := by
          cases hmid : lowerAlnumRun 8 l >>= hyphenGroup 4 with
          | none => rw [hmid] at h13; exact absurd h13 (by simp)
          | some r2 => rw [hmid] at h13; exact ⟨r2, rfl, by simpa using h13⟩
        obtain ⟨r1, h01, h' ⟩ :
            ∃ r1, lowerAlnumRun 8 l = some r1 ∧ hyphenGroup 4 r1 = some r2 := by
          cases hmid : lowerAlnumRun 8 l with
          | none => rw [hmid] at h12; exact absurd h12 (by simp)
          | some r1 => rw [hmid] at h12; exact ⟨r1, rfl, by simpa using h12⟩
        obtain ⟨g1, hl1, ha1, he1⟩ := run_sound 8 l r1 h01
        obtain ⟨g2, hl2, ha2, he2⟩ := hyphenGroup_sound 4 r1 r2 h'
        obtain ⟨g3, hl3, ha3, he3⟩ := hyphenGroup_sound 4 r2 r3 h23
        obtain ⟨g4, hl4, ha4, he4⟩ := hyphenGroup_sound 4 r3 r4 h34
        obtain ⟨g5, hl5, ha5, he5⟩ := hyphenGroup_sound 12 r4 [] h45
        refine ⟨g1, g2, g3, g4, g5, hl1, hl2, hl3, hl4, hl5,
          ha1, ha2, ha3, ha4, ha5, ?_⟩
        subst he1 he2 he3 he4 he5
        simp
  · rintro ⟨g1, g2, g3, g4, g5, hl1, hl2, hl3, hl4, hl5,
      ha1, ha2, ha3, ha4, ha5, rfl⟩
    have s1 := run_complete g1 ('-' :: (g2 ++ '-' :: (g3 ++ '-' :: (g4 ++ '-' :: g5)))) ha1
    have s2 := hyphenGroup_complete g2 ('-' :: (g3 ++ '-' :: (g4 ++ '-' :: g5))) ha2
    have s3 := hyphenGroup_complete g3 ('-' :: (g4 ++ '-' :: g5)) ha3
    have s4 := hyphenGroup_complete g4 ('-' :: g5) ha4
    have s5 : hyphenGroup g5.length ('-' :: g5) = some [] := by
      have := hyphenGroup_complete g5 [] ha5
      simpa using this
    rw [hl1] at s1; rw [hl2] at s2; rw [hl3] at s3; rw [hl4] at s4; rw [hl5] at s5
    simp [matchKeyFull, s1, s2, s3, s4, s5]

/-! ## Claim theorems for the validators -/

/-- Claim C1, counterexample: the claim states that every id with two
consecutive separator characters is rejected, and that hyphen is a separator
character; yet the code accepts the id with the two consecutive hyphens. -/
theorem validateId_accepts_consecutive_separators :
    validateId (some "a--b") = true ∧ isSepChar '-' = true ∧
    validateId (some "-a") = true := by decide

/-- Claim C1 as amended: an absent or empty peer id is accepted; otherwise the
id is accepted exactly when it consists of a nonempty first segment of
characters from A-Za-z0-9, underscore and hyphen — underscores and hyphens may
appear anywhere in this first segment, including leading, trailing or doubled —
followed by zero or more groups of a single separator (space, underscore or
hyphen) and a nonempty strictly alphanumeric segment. -/
theorem validateId_characterization :
    validateId none = true ∧
    ∀ s : String, validateId (some s) = true ↔ (s.data = [] ∨ IdShape s.data) := by
  refine ⟨rfl, ?_⟩
  intro s
  show (s.data.isEmpty || matchIdFull s.data) = true ↔ _
  by_cases hd : s.data = []
  · simp [hd]
  · have : s.data.isEmpty = false := by
      cases h : s.data with
      | nil => exact absurd h hd
      | cons c rest => simp
    rw [this]
    simp only [Bool.false_or]
    rw [matchIdFull_iff]
    exact ⟨fun h => Or.inr h, fun h => h.resolve_left hd⟩

/-- Claim C2, counterexample: the claim states that every key containing a
character outside the lowercase hexadecimal digits in a group is rejected, yet
the code accepts a key made entirely of the letter z, which is far above f in
the alphabet. -/
theorem validateKey_accepts_nonhex :
    validateKey (some "zzzzzzzz-zzzz-zzzz-zzzz-zzzzzzzzzzzz") = true ∧
    ('f' < 'z') := by
  refine ⟨by decide, by decide⟩

/-- Claim C2 as amended: an absent or empty API key is accepted; otherwise the
key is accepted exactly when it is five hyphen-separated groups of 8, 4, 4, 4
and 12 characters, each group drawn from the lowercase ASCII letters and
digits a-z0-9 — not only the hexadecimal subset. -/
theorem validateKey_characterization :
    validateKey none = true ∧
    ∀ s : String, validateKey (some s) = true ↔ (s.data = [] ∨ KeyShape s.data) := by
  refine ⟨rfl, ?_⟩
  intro s
  show (s.data.isEmpty || matchKeyFull s.data) = true ↔ _
  by_cases hd : s.data = []
  · simp [hd]
  · have : s.data.isEmpty = false := by
      cases h : s.data with
      | nil => exact absurd h hd
      | cons c rest => simp
    rw [this]
    simp only [Bool.false_or]
    rw [matchKeyFull_iff]
    exact ⟨fun h => Or.inr h, fun h => h.resolve_left hd⟩

/-- Claim C6: the validators do return synchronously on every input, but the
value returned for a nonempty input is the raw result of `RegExp.exec`: a
match object when the input matches and `null` when it does not — never a
boolean, although the functions' own documentation declares a boolean return.
This theorem evaluates the code at the failing inputs. -/
theorem validators_return_nonboolean :
    validateIdJS (some "abc") = JSVal.jsMatch "abc" ∧
    validateIdJS (some "a!b") = JSVal.jsNull ∧
    validateKeyJS (some "not-a-uuid") = JSVal.jsNull ∧
    (validateIdJS (some "abc")).isBoolVal = false ∧
    (validateKeyJS (some "not-a-uuid")).isBoolVal = false ∧
    validateIdJS none = JSVal.jsBool true := by decide

/-! ## The signaling message taxonomy

The two name families are transcribed from the source.  The enum library
constructing the kind objects (the npm `enum` package) is not part of the
repository's sources, so the lookup operation is modelled from the spec. -/

/-- Client-originated message kind names, in source order. -/
def clientMessages : List String :=
  ["SEND_OFFER", "SEND_ANSWER", "SEND_CANDIDATE", "SEND_LEAVE", "ROOM_JOIN",
   "ROOM_LEAVE", "ROOM_GET_LOGS", "ROOM_GET_USERS", "ROOM_SEND_DATA",
   "SFU_GET_OFFER", "SFU_ANSWER", "SFU_CANDIDATE", "PING", "UPDATE_CREDENTIAL"]

/-- Server-originated message kind names, in source order. -/
def serverMessages : List String :=
  ["OPEN", "ERROR", "OFFER", "ANSWER", "CANDIDATE", "LEAVE", "AUTH_EXPIRES_IN",
   "ROOM_LOGS", "ROOM_USERS", "ROOM_DATA", "ROOM_USER_JOIN", "ROOM_USER_LEAVE",
   "SFU_OFFER"]

/-- Failure mode of a taxonomy lookup. -/
inductive TaxonomyError where
  | UnknownMessageKind
  deriving DecidableEq, Repr

/-- Modelled from the spec: the enum construction performed by the external
enum library is not under the repository's sources; per the specification each
listed name resolves to a kind value with a stable numeric code within its
family, and a name that is not a member of the family fails with
`UnknownMessageKind`.  The code assigned is the position of the name in the
family list. -/
def lookupKind : List String → String → Except TaxonomyError Nat
  | [], _ => .error .UnknownMessageKind
  | n :: rest, name =>
    if name = n then .ok 0
    else
      match lookupKind rest name with
      | .ok c => .ok (c + 1)
      | .error e => .error e

/-- A successful lookup returns the position of the name in the family: the
code determines the name. -/
lemma lookupKind_ok_get : ∀ (family : List String) (name : String) (c : Nat),
    lookupKind family name = .ok c → family[c]? = some name := by
  intro family
  induction family with
  | nil => intro name c h; simp [lookupKind] at h
  | cons n rest ih =>
    intro name c h
    by_cases he : name = n
    · simp only [lookupKind, he, if_pos] at h
      obtain rfl : (0 : Nat) = c := by injection h
      simp [he]
    · simp only [lookupKind, he, if_false] at h
      cases hr : lookupKind rest name with
      | ok c' =>
        rw [hr] at h
        obtain rfl : c' + 1 = c := by injection h
        simpa using ih name c' hr
      | error e => rw [hr] at h; exact Except.noConfusion h

/-- A name that is not in the family fails with `UnknownMessageKind`. -/
lemma lookupKind_not_mem : ∀ (family : List String) (name : String),
    name ∉ family → lookupKind family name = .error .UnknownMessageKind := by
  intro family
  induction family with
  | nil => intro name _; rfl
  | cons n rest ih =>
    intro name hnm
    have hne : ¬ name = n := fun h => hnm (h ▸ List.mem_cons_self n rest)
    have hnr : name ∉ rest := fun h => hnm (List.mem_cons_of_mem n h)
    simp only [lookupKind, hne, if_false]
    rw [ih name hnr]

/-- Claim C4: both families are exhaustive and total on their listed names —
14 client names and 13 server names, pairwise distinct, each resolving to a
kind with a stable numeric code that is unique within its family — and looking
up any name outside the relevant family fails with `UnknownMessageKind`
instead of succeeding or crashing. -/
theorem message_taxonomy_total :
    clientMessages.length = 14 ∧ serverMessages.length = 13 ∧
    clientMessages.Nodup ∧ serverMessages.Nodup ∧
    (∀ name ∈ clientMessages, (lookupKind clientMessages name).isOk = true) ∧
    (∀ name ∈ serverMessages, (lookupKind serverMessages name).isOk = true) ∧
    (∀ n₁ n₂ c, lookupKind clientMessages n₁ = .ok c →
      lookupKind clientMessages n₂ = .ok c → n₁ = n₂) ∧
    (∀ n₁ n₂ c, lookupKind serverMessages n₁ = .ok c →
      lookupKind serverMessages n₂ = .ok c → n₁ = n₂) ∧
    (∀ name, name ∉ clientMessages →
      lookupKind clientMessages name = .error .UnknownMessageKind) ∧
    (∀ name, name ∉ serverMessages →
      lookupKind serverMessages name = .error .UnknownMessageKind) := by
  refine ⟨by decide, by decide, by decide, by decide, by decide, by decide,
    ?_, ?_, ?_, ?_⟩
  · intro n₁ n₂ c h₁ h₂
    have g₁ := lookupKind_ok_get clientMessages n₁ c h₁
    have g₂ := lookupKind_ok_get clientMessages n₂ c h₂
    rw [g₁] at g₂
    injection g₂
  · intro n₁ n₂ c h₁ h₂
    have g₁ := lookupKind_ok_get serverMessages n₁ c h₁
    have g₂ := lookupKind_ok_get serverMessages n₂ c h₂
    rw [g₁] at g₂
    injection g₂
  · exact lookupKind_not_mem clientMessages
  · exact lookupKind_not_mem serverMessages

/-! ## Joining sliced buffers

`Util.joinArrayBuffers` sums the byte lengths, allocates a zero-initialized
array of that size, and copies each buffer at the running offset.  Buffers are
modelled as lists of bytes and the typed-array `set` as an in-place splice. -/

/-- Model of the `reduce` computing the total byte length of the input. -/
def bufferSizeSum (buffers : List (List Nat)) : Nat :=
  buffers.foldl (fun sum buffer => sum + buffer.length) 0

/-- Model of `Uint8Array.prototype.set`: overwrite `target` with `src`
starting at position `pos`. -/
def writeAt (target src : List Nat) (pos : Nat) : List Nat :=
  target.take pos ++ src ++ target.drop (pos + src.length)

/-- Model of `Util.joinArrayBuffers`: fold over the buffers, writing each one
into the preallocated zero array at the running offset. -/
def joinArrayBuffers (buffers : List (List Nat)) : List Nat :=
  (buffers.foldl
    (fun acc buffer => (writeAt acc.1 buffer acc.2, acc.2 + buffer.length))
    (List.replicate (bufferSizeSum buffers) 0, 0)).1

/-- The length-summing fold shifted by an arbitrary start value. -/
lemma foldl_size (l : List (List Nat)) : ∀ s : Nat,
    l.foldl (fun sum buffer => sum + buffer.length) s =
      s + (l.map List.length).sum := by
  induction l with
  | nil => intro s; simp
  | cons b l ih => intro s; simp [List.foldl_cons, ih, Nat.add_assoc]

/-- Invariant of the copy loop: when the accumulator holds the already-written
bytes followed by exactly enough zeros for the remaining buffers, and the
offset equals the written length, the loop appends the concatenation of the
remaining buffers. -/
lemma joinArrayBuffers_loop (rem : List (List Nat)) : ∀ done : List Nat,
    (rem.foldl
      (fun acc buffer => (writeAt acc.1 buffer acc.2, acc.2 + buffer.length))
      (done ++ List.replicate ((rem.map List.length).sum) 0, done.length)).1 =
      done ++ rem.flatten := by
  induction rem with
  | nil => intro done; simp
  | cons buffer rem ih =>
    intro done
    have hsplit : List.replicate ((buffer :: rem).map List.length).sum (0 : Nat) =
        List.replicate buffer.length 0 ++
          List.replicate ((rem.map List.length).sum) 0 := by
      rw [← List.replicate_add]
      simp
    have hwrite :
        writeAt (done ++ List.replicate ((buffer :: rem).map List.length).sum 0)
          buffer done.length = (done ++ buffer) ++
            List.replicate ((rem.map List.length).sum) 0 := by
      rw [hsplit, writeAt]
      have ht : (done ++ (List.replicate buffer.length 0 ++
          List.replicate ((rem.map List.length).sum) 0)).take done.length = done :=
        List.take_left done _
      have hd : (done ++ (List.replicate buffer.length 0 ++
          List.replicate ((rem.map List.length).sum) 0)).drop
            (done.length + buffer.length) =
          List.replicate ((rem.map List.length).sum) 0 := by
        rw [← List.append_assoc]
        have hlen : done.length + buffer.length =
            (done ++ List.replicate buffer.length 0).length := by simp
        rw [hlen]
        exact List.drop_left _ _
      rw [ht, hd, List.append_assoc]
    rw [List.foldl_cons, hwrite]
    have hpos : done.length + buffer.length = (done ++ buffer).length := by simp
    rw [hpos, ih (done ++ buffer)]
    simp

/-- Claim C5: for every finite list of byte buffers, the join is the exact
byte-for-byte concatenation of the inputs in order, with total length the sum
of the input lengths — no padding and no separators. -/
theorem joinArrayBuffers_concat (buffers : List (List Nat)) :
    joinArrayBuffers buffers = buffers.flatten ∧
    (joinArrayBuffers buffers).length = (buffers.map List.length).sum := by
  have h := joinArrayBuffers_loop buffers []
  have hinit : joinArrayBuffers buffers = [] ++ buffers.flatten := by
    rw [joinArrayBuffers, bufferSizeSum, foldl_size]
    simpa using h
  constructor
  · simpa using hinit
  · rw [hinit]
    simp [List.length_flatten]

/-! ## Configuration constants and the transport capability probe -/

/-- The configured maximum chunk size from the source, in bytes. -/
def maxChunkSize : Nat := 16300

/-- The absolute per-frame limit of the data-channel transport: 16 KiB. -/
def dataChannelFrameLimit : Nat := 16384

/-- Claim C9: the configured maximum chunk size sits strictly below the 16 KiB
per-frame transport limit, leaving byte headroom for metadata. -/
theorem maxChunkSize_below_frame_limit :
    maxChunkSize < dataChannelFrameLimit ∧ maxChunkSize = 16300 ∧
    dataChannelFrameLimit = 16384 := by decide

/-- The runtime environment as the probe sees it: which of the three realtime
transport constructors exist (are truthy) on the global object. -/
structure WindowEnv where
  mozRTCPeerConnection : Bool
  webkitRTCPeerConnection : Bool
  rtcPeerConnection : Bool

/-- Model of the immediately-invoked probe in the constructor: Firefox-prefixed
constructor first, then the WebKit-prefixed one, then the standard one, else
unsupported. -/
def detectBrowser (w : WindowEnv) : String :=
  if w.mozRTCPeerConnection then "Firefox"
  else if w.webkitRTCPeerConnection then "Chrome"
  else if w.rtcPeerConnection then "Supported"
  else "Unsupported"

/-- The part of the singleton `Util` instance state relevant here: the probe
result is stored once into the `browser` field at construction and read as a
plain immutable field afterwards. -/
structure UtilState where
  browser : String
  chunkLimit : Nat

/-- Model of the `Util` constructor for the fields above. -/
def mkUtil (w : WindowEnv) : UtilState :=
  ⟨detectBrowser w, maxChunkSize⟩

/-- Claim C8: the probe returns exactly one of the four values, chosen by
which transport constructor is present with the Firefox-prefixed one checked
first, then the WebKit-prefixed one, then the standard one; the result is
fixed into the constructed state. -/
theorem browser_detection (w : WindowEnv) :
    (detectBrowser w = "Firefox" ∨ detectBrowser w = "Chrome" ∨
      detectBrowser w = "Supported" ∨ detectBrowser w = "Unsupported") ∧
    (mkUtil w).browser = detectBrowser w ∧
    (w.mozRTCPeerConnection = true → detectBrowser w = "Firefox") ∧
    (w.mozRTCPeerConnection = false → w.webkitRTCPeerConnection = true →
      detectBrowser w = "Chrome") ∧
    (w.mozRTCPeerConnection = false → w.webkitRTCPeerConnection = false →
      w.rtcPeerConnection = true → detectBrowser w = "Supported") ∧
    (w.mozRTCPeerConnection = false → w.webkitRTCPeerConnection = false →
      w.rtcPeerConnection = false → detectBrowser w = "Unsupported") := by
  rcases w with ⟨moz, webkit, std⟩
  cases moz <;> cases webkit <;> cases std <;> simp [mkUtil, detectBrowser]

/-! ## Random identifiers

Both token helpers start from `Math.random().toString(36)`.  `Math.random` is
a platform primitive outside the repository's sources, so its output is
modelled from the spec and from the source's own comment: the base-36
rendering of a number in the interval from zero inclusive to one exclusive is
either the single character 0, or the characters 0 and dot followed by a
nonempty run of base-36 digit characters. -/

/-- Base-36 digit characters 0-9a-z produced by `toString(36)`. -/
def isBase36 (c : Char) : Bool :=
  ('0' ≤ c && c ≤ '9') || ('a' ≤ c && c ≤ 'z')

/-- Modelled from the spec: the set of character sequences the underlying
random source can yield, as described above. -/
def RandomSourceOutput (r : List Char) : Prop :=
  r = ['0'] ∨ ∃ ds : List Char, ds ≠ [] ∧ (∀ c ∈ ds, isBase36 c = true) ∧
    r = '0' :: '.' :: ds

/-- Model of `Util.randomId` applied to a given random-source rendering:
append nineteen zero characters, then take the sixteen characters starting at
position two. -/
def randomId (r : List Char) : List Char :=
  ((r ++ List.replicate 19 '0').drop 2).take 16

/-- Model of `Util.randomToken` applied to a given random-source rendering:
the characters from position two on, with no padding. -/
def randomToken (r : List Char) : List Char :=
  r.drop 2

/-- Claim C7: for every value the random source can produce, the identifier
has exactly sixteen characters, all from the 0-9a-z alphabet, the zero
characters padding whenever the source yields fewer than sixteen usable
digits. -/
theorem randomId_length_alphabet (r : List Char) (h : RandomSourceOutput r) :
    (randomId r).length = 16 ∧ ∀ c ∈ randomId r, isBase36 c = true := by
  constructor
  · simp only [randomId, List.length_take, List.length_drop, List.length_append,
      List.length_replicate]
    omega
  · rcases h with rfl | ⟨ds, hne, hall, rfl⟩
    · decide
    · intro c hc
      simp only [randomId, List.cons_append, List.drop_succ_cons,
        List.drop_zero] at hc
      have hmem : c ∈ ds ++ List.replicate 19 '0' := List.take_subset _ _ hc
      rcases List.mem_append.mp hmem with hd | hp
      · exact hall c hd
      · rw [List.eq_of_mem_replicate hp]; decide

/-- Witness for claim C7 at the concrete source rendering 0.abc. -/
theorem randomId_length_alphabet_witness :
    (randomId ('0' :: '.' :: ['a', 'b', 'c'])).length = 16 ∧
    ∀ c ∈ randomId ('0' :: '.' :: ['a', 'b', 'c']), isBase36 c = true :=
  randomId_length_alphabet ('0' :: '.' :: ['a', 'b', 'c'])
    (Or.inr ⟨['a', 'b', 'c'], by decide, by decide, rfl⟩)

/-- Claim C10: when the random source yields exactly 0 — whose base-36
rendering has no fractional digits — the token is the empty string, and the
token length is not fixed across source outputs. -/
theorem randomToken_can_be_empty :
    (RandomSourceOutput ['0'] ∧ randomToken ['0'] = []) ∧
    ∃ r : List Char, RandomSourceOutput r ∧
      (randomToken r).length ≠ (randomToken ['0']).length := by
  refine ⟨⟨Or.inl rfl, rfl⟩, '0' :: '.' :: ['a'], ?_, by decide⟩
  exact Or.inr ⟨['a'], by decide, by decide, rfl⟩

/-! ## The binary codec

The source wires `Util.pack` and `Util.unpack` to an off-the-shelf binary
serialization library whose code is not part of this repository; the spec
treats the codec as a contract: structural fidelity for null, booleans,
integers, floats, strings, raw byte buffers and nested
sequences/string-keyed mappings, with decode the left inverse of encode.
The codec below is modelled from that contract. -/

/-- Variable-length byte encoding of a natural number: little-endian base-128
digits, each non-final byte carrying a continuation bit. -/
def varNat (n : Nat) : List Nat :=
  if h : n < 128 then [n]
  else (n % 128 + 128) :: varNat (n / 128)
decreasing_by exact Nat.div_lt_self (by omega) (by omega)

/-- Decoder for `varNat`: returns the number and the unconsumed bytes. -/
def decodeNat : List Nat → Option (Nat × List Nat)
  | [] => none
  | b :: rest =>
    if b < 128 then some (b, rest)
    else
      match decodeNat rest with
      | some (m, r) => some (b - 128 + 128 * m, r)
      | none => none

/-- The `varNat` encoding never produces an empty byte sequence. -/
lemma varNat_length_pos (n : Nat) : 1 ≤ (varNat n).length := by
  rw [varNat]
  split <;> simp

/-- Round trip of the variable-length natural encoding in front of any
remaining bytes. -/
lemma decodeNat_varNat : ∀ (n : Nat) (rest : List Nat),
    decodeNat (varNat n ++ rest) = some (n, rest) := by
  intro n
  induction n using Nat.strong_induction_on with
  | _ n ih =>
    intro rest
    by_cases h : n < 128
    · rw [varNat, dif_pos h]
      simp [decodeNat, h]
    · rw [varNat, dif_neg h]
      have hb : ¬ (n % 128 + 128 < 128) := by omega
      have hdiv : n / 128 < n := Nat.div_lt_self (by omega) (by omega)
      simp only [List.cons_append, decodeNat, hb, if_false, List.append_eq]
      rw [ih (n / 128) hdiv rest]
      simp
      omega

/-- Consume exactly `n` raw bytes, returning them and the rest. -/
def takeN : Nat → List Nat → Option (List Nat × List Nat)
  | 0, l => some ([], l)
  | _ + 1, [] => none
  | n + 1, b :: l =>
    match takeN n l with
    | some (g, r) => some (b :: g, r)
    | none => none

/-- Round trip of the raw-byte consumer. -/
lemma takeN_append : ∀ (g rest : List Nat), takeN g.length (g ++ rest) = some (g, rest) := by
  intro g
  induction g with
  | nil => intro rest; simp [takeN]
  | cons b g ih => intro rest; simp [takeN, ih rest]

/-- Character-sequence encoding: each character's code point as a `varNat`.
The spec asks for a universal text encoding; code points are one. -/
def encodeChars (cs : List Char) : List Nat :=
  cs.foldr (fun c acc => varNat c.toNat ++ acc) []

/-- Decoder for `encodeChars`, reading a known count of characters. -/
def decodeChars : Nat → List Nat → Option (List Char × List Nat)
  | 0, bytes => some ([], bytes)
  | n + 1, bytes =>
    match decodeNat bytes with
    | some (k, r) =>
      match decodeChars n r with
      | some (cs, r2) => some (Char.ofNat k :: cs, r2)
      | none => none
    | none => none

/-- Round trip of the character-sequence encoding. -/
lemma decodeChars_encode : ∀ (cs : List Char) (rest : List Nat),
    decodeChars cs.length (encodeChars cs ++ rest) = some (cs, rest) := by
  intro cs
  induction cs with
  | nil => intro rest; simp [encodeChars, decodeChars]
  | cons c cs ih =>
    intro rest
    have hchain : encodeChars (c :: cs) ++ rest =
        varNat c.toNat ++ (encodeChars cs ++ rest) := by
      simp [encodeChars]
    rw [List.length_cons, hchain]
    simp only [decodeChars, decodeNat_varNat, ih rest, Char.ofNat_toNat]

/-- Signed-integer encoding: a sign byte then the magnitude as `varNat`. -/
def encodeInt (i : Int) : List Nat :=
  if i < 0 then 1 :: varNat (-i).toNat else 0 :: varNat i.toNat

/-- Decoder for `encodeInt`. -/
def decodeInt : List Nat → Option (Int × List Nat)
  | 0 :: rest =>
    (match decodeNat rest with
      | some (n, r) => some ((n : Int), r)
      | none => none)
  | 1 :: rest =>
    (match decodeNat rest with
      | some (n, r) => some (-(n : Int), r)
      | none => none)
  | _ => none

/-- Round trip of the signed-integer encoding. -/
lemma decodeInt_encode (i : Int) (rest : List Nat) :
    decodeInt (encodeInt i ++ rest) = some (i, rest) := by
  by_cases h : i < 0
  · rw [encodeInt, if_pos h]
    simp only [List.cons_append, decodeInt, decodeNat_varNat]
    have : -((-i).toNat : Int) = i := by omega
    rw [this]
  · rw [encodeInt, if_neg h]
    simp only [List.cons_append, decodeInt, decodeNat_varNat]
    have : ((i.toNat : Int)) = i := by omega
    rw [this]

mutual

/-- Modelled from the spec: the supported value shapes of the binary codec —
null, boolean, exact integer, floating-point number (carried as its raw
64-bit pattern, so numeric round-trip is bit-exact), text string, raw byte
buffer, ordered sequence, and string-keyed mapping of supported values. -/
inductive PackValue where
  | vnull : PackValue
  | vbool : Bool → PackValue
  | vint : Int → PackValue
  | vfloat : Nat → PackValue
  | vstr : String → PackValue
  | vbin : List Nat → PackValue
  | vseq : PackList → PackValue
  | vmap : PackMap → PackValue

/-- Ordered sequence of supported values. -/
inductive PackList where
  | nil : PackList
  | cons : PackValue → PackList → PackList

/-- String-keyed mapping of supported values, as an ordered entry list. -/
inductive PackMap where
  | nil : PackMap
  | cons : String → PackValue → PackMap → PackMap

end

/-- Number of elements of a sequence value. -/
def PackList.size : PackList → Nat
  | .nil => 0
  | .cons _ tl => tl.size + 1

/-- Number of entries of a mapping value. -/
def PackMap.size : PackMap → Nat
  | .nil => 0
  | .cons _ _ tl => tl.size + 1

mutual

/-- Encoder of the codec contract: a type tag byte, then the
length-prefixed payload. -/
def encodeValue : PackValue → List Nat
  | .vnull => [0]
  | .vbool false => [1]
  | .vbool true => [2]
  | .vint i => 3 :: encodeInt i
  | .vfloat bits => 4 :: varNat bits
  | .vstr s => 5 :: (varNat s.data.length ++ encodeChars s.data)
  | .vbin bs => 6 :: (varNat bs.length ++ bs)
  | .vseq l => 7 :: (varNat l.size ++ encodeItems l)
  | .vmap m => 8 :: (varNat m.size ++ encodeEntries m)

/-- Concatenated encodings of the elements of a sequence. -/
def encodeItems : PackList → List Nat
  | .nil => []
  | .cons hd tl => encodeValue hd ++ encodeItems tl

/-- Concatenated encodings of the entries of a mapping: length-prefixed key
code points, then the value. -/
def encodeEntries : PackMap → List Nat
  | .nil => []
  | .cons k v tl =>
    varNat k.data.length ++ (encodeChars k.data ++ (encodeValue v ++ encodeEntries tl))

end

mutual

/-- Fuelled decoder for a single value; the fuel only bounds the nesting of
containers, and the top-level entry point supplies enough for any input. -/
def decodeValue : Nat → List Nat → Option (PackValue × List Nat)
  | 0, _ => none
  | _ + 1, [] => none
  | _ + 1, 0 :: rest => some (.vnull, rest)
  | _ + 1, 1 :: rest => some (.vbool false, rest)
  | _ + 1, 2 :: rest => some (.vbool true, rest)
  | _ + 1, 3 :: rest =>
    (match decodeInt rest with
      | some (i, r) => some (.vint i, r)
      | none => none)
  | _ + 1, 4 :: rest =>
    (match decodeNat rest with
      | some (bits, r) => some (.vfloat bits, r)
      | none => none)
  | _ + 1, 5 :: rest =>
    (match decodeNat rest with
      | some (n, r) =>
        match decodeChars n r with
        | some (cs, r2) => some (.vstr (String.mk cs), r2)
        | none => none
      | none => none)
  | _ + 1, 6 :: rest =>
    (match decodeNat rest with
      | some (n, r) =>
        match takeN n r with
        | some (bs, r2) => some (.vbin bs, r2)
        | none => none
      | none => none)
  | fuel + 1, 7 :: rest =>
    (match decodeNat rest with
      | some (n, r) =>
        match decodeItems fuel n r with
        | some (l, r2) => some (.vseq l, r2)
        | none => none
      | none => none)
  | fuel + 1, 8 :: rest =>
    (match decodeNat rest with
      | some (n, r) =>
        match decodeEntries fuel n r with
        | some (m, r2) => some (.vmap m, r2)
        | none => none
      | none => none)
  | _ + 1, _ :: _ => none

/-- Fuelled decoder for a known count of sequence elements. -/
def decodeItems : Nat → Nat → List Nat → Option (PackList × List Nat)
  | _, 0, bytes => some (.nil, bytes)
  | 0, _ + 1, _ => none
  | fuel + 1, n + 1, bytes =>
    (match decodeValue fuel bytes with
      | some (v, r) =>
        match decodeItems fuel n r with
        | some (tl, r2) => some (.cons v tl, r2)
        | none => none
      | none => none)

/-- Fuelled decoder for a known count of mapping entries. -/
def decodeEntries : Nat → Nat → List Nat → Option (PackMap × List Nat)
  | _, 0, bytes => some (.nil, bytes)
  | 0, _ + 1, _ => none
  | fuel + 1, n + 1, bytes =>
    (match decodeNat bytes with
      | some (kn, r0) =>
        match decodeChars kn r0 with
        | some (kcs, r1) =>
          match decodeValue fuel r1 with
          | some (v, r) =>
            match decodeEntries fuel n r with
            | some (tl, r2) => some (.cons (String.mk kcs) v tl, r2)
            | none => none
          | none => none
        | none => none
      | none => none)

end

mutual

/-- Fuel needed to decode a value: one per container nesting level. -/
def fsize : PackValue → Nat
  | .vseq l => lsize l + 1
  | .vmap m => msize m + 1
  | _ => 1

/-- Fuel needed to decode a sequence's elements. -/
def lsize : PackList → Nat
  | .nil => 1
  | .cons hd tl => max (fsize hd) (lsize tl) + 1

/-- Fuel needed to decode a mapping's entries. -/
def msize : PackMap → Nat
  | .nil => 1
  | .cons _ v tl => max (fsize v) (msize tl) + 1

end

/-- Every value needs at least one unit of fuel. -/
lemma one_le_fsize (v : PackValue) : 1 ≤ fsize v := by
  cases v <;> simp [fsize]

/-- Every sequence tail needs at least one unit of fuel. -/
lemma one_le_lsize (l : PackList) : 1 ≤ lsize l := by
  cases l <;> simp [lsize]

/-- Every mapping tail needs at least one unit of fuel. -/
lemma one_le_msize (m : PackMap) : 1 ≤ msize m := by
  cases m <;> simp [msize]

/-- Every value encoding starts with a tag byte, so it is nonempty. -/
lemma encodeValue_length_pos (v : PackValue) : 1 ≤ (encodeValue v).length := by
  cases v with
  | vnull => simp [encodeValue]
  | vbool b => cases b <;> simp [encodeValue]
  | vint i => simp [encodeValue]
  | vfloat bits => simp [encodeValue]
  | vstr s => simp [encodeValue]
  | vbin bs => simp [encodeValue]
  | vseq l => simp [encodeValue]
  | vmap m => simp [encodeValue]

mutual

/-- The fuel measure of a value is bounded by its encoded length. -/
theorem fsize_le_encodeLen (v : PackValue) : fsize v ≤ (encodeValue v).length := by
  cases v with
  | vnull => simp [fsize, encodeValue]
  | vbool b => cases b <;> simp [fsize, encodeValue]
  | vint i => simp [fsize, encodeValue]
  | vfloat bits => simp [fsize, encodeValue]
  | vstr s => simp [fsize, encodeValue]
  | vbin bs => simp [fsize, encodeValue]
  | vseq l =>
    have h1 := lsize_le_encodeLen l
    have h2 := varNat_length_pos l.size
    simp only [fsize, encodeValue, List.length_cons, List.length_append]
    omega
  | vmap m =>
    have h1 := msize_le_encodeLen m
    have h2 := varNat_length_pos m.size
    simp only [fsize, encodeValue, List.length_cons, List.length_append]
    omega

/-- The fuel measure of a sequence tail is bounded by its encoded length plus
one. -/
theorem lsize_le_encodeLen (l : PackList) : lsize l ≤ (encodeItems l).length + 1 := by
  cases l with
  | nil => simp [lsize, encodeItems]
  | cons hd tl =>
    have h1 := fsize_le_encodeLen hd
    have h2 := lsize_le_encodeLen tl
    have h3 := encodeValue_length_pos hd
    simp only [lsize, encodeItems, List.length_append]
    omega

/-- The fuel measure of a mapping tail is bounded by its encoded length plus
one. -/
theorem msize_le_encodeLen (m : PackMap) : msize m ≤ (encodeEntries m).length + 1 := by
  cases m with
  | nil => simp [msize, encodeEntries]
  | cons k v tl =>
    have h1 := fsize_le_encodeLen v
    have h2 := msize_le_encodeLen tl
    have h3 := varNat_length_pos k.data.length
    simp only [msize, encodeEntries, List.length_append]
    omega

end

mutual

/-- Round trip of a single value: with enough fuel, decoding the encoding in
front of any remaining bytes returns the value and those bytes. -/
theorem decodeValue_encode (v : PackValue) : ∀ fuel : Nat, fsize v ≤ fuel →
    ∀ rest : List Nat, decodeValue fuel (encodeValue v ++ rest) = some (v, rest) := by
  cases v with
  | vnull =>
    intro fuel hf rest
    cases fuel with
    | zero => have := one_le_fsize PackValue.vnull; omega
    | succ f => simp [encodeValue, decodeValue]
  | vbool b =>
    intro fuel hf rest
    cases fuel with
    | zero => have := one_le_fsize (PackValue.vbool b); omega
    | succ f => cases b <;> simp [encodeValue, decodeValue]
  | vint i =>
    intro fuel hf rest
    cases fuel with
    | zero => have := one_le_fsize (PackValue.vint i); omega
    | succ f =>
      have hb : encodeValue (.vint i) ++ rest = 3 :: (encodeInt i ++ rest) := by
        simp [encodeValue]
      rw [hb]
      simp [decodeValue, decodeInt_encode]
  | vfloat bits =>
    intro fuel hf rest
    cases fuel with
    | zero => have := one_le_fsize (PackValue.vfloat bits); omega
    | succ f =>
      have hb : encodeValue (.vfloat bits) ++ rest = 4 :: (varNat bits ++ rest) := by
        simp [encodeValue]
      rw [hb]
      simp [decodeValue, decodeNat_varNat]
  | vstr s =>
    intro fuel hf rest
    cases fuel with
    | zero => have := one_le_fsize (PackValue.vstr s); omega
    | succ f =>
      obtain ⟨cs⟩ := s
      have hb : encodeValue (.vstr ⟨cs⟩) ++ rest =
          5 :: (varNat cs.length ++ (encodeChars cs ++ rest)) := by
        simp [encodeValue]
      rw [hb]
      simp [decodeValue, decodeNat_varNat, decodeChars_encode]
  | vbin bs =>
    intro fuel hf rest
    cases fuel with
    | zero => have := one_le_fsize (PackValue.vbin bs); omega
    | succ f =>
      have hb : encodeValue (.vbin bs) ++ rest =
          6 :: (varNat bs.length ++ (bs ++ rest)) := by
        simp [encodeValue]
      rw [hb]
      simp [decodeValue, decodeNat_varNat, takeN_append]
  | vseq l =>
    intro fuel hf rest
    cases fuel with
    | zero => have := one_le_fsize (PackValue.vseq l); omega
    | succ f =>
      have hl : lsize l ≤ f := by
        simp only [fsize] at hf; omega
      have hb : encodeValue (.vseq l) ++ rest =
          7 :: (varNat l.size ++ (encodeItems l ++ rest)) := by
        simp [encodeValue]
      rw [hb]
      simp [decodeValue, decodeNat_varNat, decodeItems_encode l f hl rest]
  | vmap m =>
    intro fuel hf rest
    cases fuel with
    | zero => have := one_le_fsize (PackValue.vmap m); omega
    | succ f =>
      have hm : msize m ≤ f := by
        simp only [fsize] at hf; omega
      have hb : encodeValue (.vmap m) ++ rest =
          8 :: (varNat m.size ++ (encodeEntries m ++ rest)) := by
        simp [encodeValue]
      rw [hb]
      simp [decodeValue, decodeNat_varNat, decodeEntries_encode m f hm rest]

/-- Round trip of a sequence's elements at their declared count. -/
theorem decodeItems_encode (l : PackList) : ∀ fuel : Nat, lsize l ≤ fuel →
    ∀ rest : List Nat,
      decodeItems fuel l.size (encodeItems l ++ rest) = some (l, rest) := by
  cases l with
  | nil =>
    intro fuel hf rest
    simp [PackList.size, encodeItems, decodeItems]
  | cons hd tl =>
    intro fuel hf rest
    cases fuel with
    | zero => have := one_le_lsize (PackList.cons hd tl); omega
    | succ f =>
      have hhd : fsize hd ≤ f := by
        simp only [lsize] at hf; omega
      have htl : lsize tl ≤ f := by
        simp only [lsize] at hf; omega
      have hb : encodeItems (.cons hd tl) ++ rest =
          encodeValue hd ++ (encodeItems tl ++ rest) := by
        simp [encodeItems]
      have hsz : (PackList.cons hd tl).size = tl.size + 1 := rfl
      rw [hb, hsz]
      simp [decodeItems, decodeValue_encode hd f hhd,
        decodeItems_encode tl f htl rest]

/-- Round trip of a mapping's entries at their declared count. -/
theorem decodeEntries_encode (m : PackMap) : ∀ fuel : Nat, msize m ≤ fuel →
    ∀ rest : List Nat,
      decodeEntries fuel m.size (encodeEntries m ++ rest) = some (m, rest) := by
  cases m with
  | nil =>
    intro fuel hf rest
    simp [PackMap.size, encodeEntries, decodeEntries]
  | cons k v tl =>
    intro fuel hf rest
    cases fuel with
    | zero => have := one_le_msize (PackMap.cons k v tl); omega
    | succ f =>
      have hv : fsize v ≤ f := by
        simp only [msize] at hf; omega
      have htl : msize tl ≤ f := by
        simp only [msize] at hf; omega
      obtain ⟨kcs⟩ := k
      have hb : encodeEntries (.cons ⟨kcs⟩ v tl) ++ rest =
          varNat kcs.length ++
            (encodeChars kcs ++ (encodeValue v ++ (encodeEntries tl ++ rest))) := by
        simp [encodeEntries]
      have hsz : (PackMap.cons ⟨kcs⟩ v tl).size = tl.size + 1 := rfl
      rw [hb, hsz]
      simp [decodeEntries, decodeNat_varNat, decodeChars_encode,
        decodeValue_encode v f hv, decodeEntries_encode tl f htl rest]

end

/-- Model of `Util.pack`: the encoder of the codec contract. -/
def pack (v : PackValue) : List Nat := encodeValue v

/-- Model of `Util.unpack`: decode one value and require the input to be
consumed exactly; a truncated, unknown-tagged or over-long byte sequence fails
with `MalformedFrame`. -/
def unpack (bytes : List Nat) : Except String PackValue :=
  match decodeValue (bytes.length + 1) bytes with
  | some (v, []) => .ok v
  | _ => .error "MalformedFrame"

/-- Claim C3: for every supported value, decoding the encoding yields a value
structurally equal to the original, and encoding is deterministic — the same
input always encodes to the same byte sequence. -/
theorem unpack_pack (v : PackValue) :
    unpack (pack v) = Except.ok v ∧
    ∀ w : PackValue, w = v → pack w = pack v := by
  constructor
  · have hle : fsize v ≤ (encodeValue v).length + 1 :=
      le_trans (fsize_le_encodeLen v) (Nat.le_succ _)
    have h := decodeValue_encode v ((encodeValue v).length + 1) hle []
    rw [List.append_nil] at h
    simp [unpack, pack, h]
  · intro w hw
    rw [hw]

end SkywayUtil
